import Mathlib

/-!
# Verification of the app-market-analysis cleaning pipeline

Shallow embedding of `src/clean_and_analyze.py`: rows are lists of strings,
datasets are lists of rows, Python dictionaries are insertion-ordered
association lists, Python `float` values are modelled by `ℚ`, and Python
exceptions (`IndexError`, `ValueError` from `float()`, `KeyError`) are
modelled with `Except`.
-/

/-- A data row: an ordered sequence of string fields (one CSV record). -/
abbrev Row := List String

/-- A dataset: an ordered sequence of rows (header already removed). -/
abbrev Dataset := List Row

/-- Python exceptions that the embedded code can raise:
`indexError` for out-of-range subscripts, `valueError` for `float()` on an
unparsable string (the spec's `MalformedNumberError`), `keyError` for a
missing dictionary key. -/
inductive PyErr where
  | indexError
  | valueError
  | keyError
  deriving DecidableEq

/-- `row[i]` in Python: the field at position `i`, raising `IndexError`
when the row is too short. -/
def pyGetS (r : Row) (i : Nat) : Except PyErr String :=
  match r[i]? with
  | some s => .ok s
  | none => .error .indexError

/-- Numeric value of a digit character. -/
def digitVal (c : Char) : Nat := c.toNat - 48

/-- Value of a nonempty digit string read left to right. -/
def digitsToNat (cs : List Char) : Nat := cs.foldl (fun n c => 10 * n + digitVal c) 0

/-- All characters are decimal digits. -/
def allDigits (cs : List Char) : Bool := cs.all Char.isDigit

/-- Core of the `float()` model: an unsigned decimal literal, i.e. digits
with at most one decimal point and at least one digit overall. -/
def pyFloatCore (cs : List Char) : Option ℚ :=
  let ip := cs.takeWhile (fun c => c != '.')
  let rest := cs.dropWhile (fun c => c != '.')
  match rest with
  | [] =>
    if !ip.isEmpty && allDigits ip then some ((digitsToNat ip : ℚ)) else none
  | _ :: fp =>
    if (!ip.isEmpty || !fp.isEmpty) && allDigits ip && allDigits fp then
      some ((digitsToNat ip : ℚ) + (digitsToNat fp : ℚ) / ((10 : ℚ) ^ fp.length))
    else none

/-- Model of Python `float(s)` on the plain decimal literals that occur in
the datasets: an optional sign followed by digits with an optional decimal
point.  Exponents, infinities and surrounding whitespace are not modelled.
Returns `none` where Python raises `ValueError`. -/
def pyFloat (s : String) : Option ℚ :=
  match s.toList with
  | '-' :: cs => (pyFloatCore cs).map Neg.neg
  | '+' :: cs => pyFloatCore cs
  | cs => pyFloatCore cs

/-- `float()` as an exception-raising computation. -/
def pyFloatE (s : String) : Except PyErr ℚ :=
  match pyFloat s with
  | some q => .ok q
  | none => .error .valueError

/-- Lookup in an insertion-ordered association list (Python `d[k]` /
`k in d`): the value stored at the first matching key. -/
def dictGet {β : Type} : List (String × β) → String → Option β
  | [], _ => none
  | (k', v) :: m, k => if k' = k then some v else dictGet m k

/-- Python `d[k] = v` on an insertion-ordered association list: replace the
value at an existing key in place, otherwise append the new key at the end
(Python dictionaries preserve insertion order). -/
def dictSet {β : Type} : List (String × β) → String → β → List (String × β)
  | [], k, v => [(k, v)]
  | (k', v') :: m, k, v =>
    if k' = k then (k', v) :: m else (k', v') :: dictSet m k v

/-- The keys of an association list, in insertion order. -/
def keysOf {β : Type} (m : List (String × β)) : List String := m.map Prod.fst

/-- Python `d[k]` raising `KeyError` when the key is absent. -/
def pyLookup {β : Type} (m : List (String × β)) (k : String) : Except PyErr β :=
  match dictGet m k with
  | some v => .ok v
  | none => .error .keyError

-- ---------------------------------------------------------------
-- Step 1 of the source: delwrongdata (RowValidator)
-- ---------------------------------------------------------------

/-- The loop `for i, row in enumerate(dataset): if len(row) != ref_len:
wrong_indices.append(i)` of `delwrongdata`, started at index `i`. -/
def badIdxs (refLen : Nat) : Dataset → Nat → List Nat
  | [], _ => []
  | row :: rest, i =>
    if row.length ≠ refLen then i :: badIdxs refLen rest (i + 1)
    else badIdxs refLen rest (i + 1)

/-- `delwrongdata` from the source: take the length of the first data row as
reference (Python raises `IndexError` on an empty dataset at `dataset[0]`),
record the indices of rows of a different length, and delete them from the
end (`for i in reversed(wrong_indices): del dataset[i]`). -/
def delwrongdata (dataset : Dataset) : Except PyErr Dataset :=
  match dataset with
  | [] => .error .indexError
  | r0 :: _ =>
    let refLen := r0.length
    let wrongIndices := badIdxs refLen dataset 0
    .ok (wrongIndices.reverse.foldl (fun d i => d.eraseIdx i) dataset)

/-- Folding `eraseIdx` from the right over a list of indices (the effect of
deleting a descending sequence of indices in Python). -/
def eraseAll (d : Dataset) (idxs : List Nat) : Dataset :=
  idxs.foldr (fun i acc => acc.eraseIdx i) d

-- ---------------------------------------------------------------
-- Steps 3 and 4 of the source: createdicodup / deldupdata
-- (DuplicateResolver)
-- ---------------------------------------------------------------

/-- Mutable Python dict `{app_name: max_number_of_reviews}`. -/
abbrev Dict := List (String × ℚ)

/-- The loop body of `createdicodup`: for each row read `name = app[0]` and
`n_reviews = float(app[3])`; update the stored value when the row has
strictly more reviews, insert when the name is new. -/
def createdicodupAux : Dataset → Dict → Except PyErr Dict
  | [], m => .ok m
  | app :: rest, m => do
    let name ← pyGetS app 0
    let s ← pyGetS app 3
    let n ← pyFloatE s
    let m' :=
      match dictGet m name with
      | some v => if v < n then dictSet m name n else m
      | none => dictSet m name n
    createdicodupAux rest m'

/-- `createdicodup` from the source: build the `reviews_max` dictionary
mapping each app name to the maximum review count seen for it. -/
def createdicodup (dataset : Dataset) : Except PyErr Dict :=
  createdicodupAux dataset []

/-- The loop of `deldupdata`, carrying the accumulators `android_clean`
(rows kept so far) and `already_added` (names kept so far).  For each row
read `name = app[0]` and `n_reviews = float(app[3])`; keep the row when its
name is not yet added and `reviews_max[name] == n_reviews` (the dictionary
subscript is only evaluated when the name is not yet added, as Python's
`and` short-circuits). -/
def deldupdataAux (reviews_max : Dict) :
    Dataset → Dataset → List String → Except PyErr Dataset
  | [], clean, _ => .ok clean
  | app :: rest, clean, added => do
    let name ← pyGetS app 0
    let s ← pyGetS app 3
    let n ← pyFloatE s
    if name ∈ added then deldupdataAux reviews_max rest clean added
    else do
      let v ← pyLookup reviews_max name
      if v = n then
        deldupdataAux reviews_max rest (clean ++ [app]) (added ++ [name])
      else deldupdataAux reviews_max rest clean added

/-- `deldupdata` from the source: keep, per app name, the first row whose
review count equals the `reviews_max` entry for that name. -/
def deldupdata (dataset : Dataset) (reviews_max : Dict) : Except PyErr Dataset :=
  deldupdataAux reviews_max dataset [] []

-- Abbreviations used to state properties of the duplicate resolver.

/-- The name field of a row (column 0). -/
def rname (r : Row) : String := r.getD 0 ""

/-- The parsed review-count field of a row (column 3), defaulting to 0 when
it does not parse (the claims only use it on rows where parsing succeeds). -/
def rrev (r : Row) : ℚ := (pyFloat (r.getD 3 "")).getD 0

/-- All rows of a dataset whose name field is `name`, in order. -/
def occs (d : Dataset) (name : String) : Dataset :=
  d.filter (fun r => decide (rname r = name))

/-- The review counts of all rows named `name`, in order. -/
def revsOf (d : Dataset) (name : String) : List ℚ := (occs d name).map rrev

/-- Running maximum as `createdicodup` computes it: fold the review counts
into an optional current maximum. -/
def mergeMax : Option ℚ → List ℚ → Option ℚ
  | o, [] => o
  | none, q :: qs => mergeMax (some q) qs
  | some v, q :: qs => mergeMax (some (max v q)) qs

/-- Maximum of a list of rationals (0 for the empty list, which the claims
never use). -/
def qmaxD : List ℚ → ℚ
  | [] => 0
  | q :: qs => qs.foldl max q

/-- The maximum review count over all rows named `name`. -/
def maxRevOf (d : Dataset) (name : String) : ℚ := qmaxD (revsOf d name)

/-- Pure functional mirror of the `deldupdata` loop, used to reason about
it: given the `reviews_max` index, keep a row when its name is not yet
added and its review count equals the indexed maximum. -/
def dedupGo (idx : Dict) : Dataset → List String → Dataset
  | [], _ => []
  | app :: rest, added =>
    if rname app ∈ added then dedupGo idx rest added
    else if dictGet idx (rname app) = some (rrev app) then
      app :: dedupGo idx rest (added ++ [rname app])
    else dedupGo idx rest added

-- ---------------------------------------------------------------
-- Step 5 of the source: is_english (LanguageFilter)
-- ---------------------------------------------------------------

/-- The loop of `is_english`, carrying the running count of characters with
code point above 127; it returns `False` as soon as the count exceeds 3. -/
def isEnglishGo : List Char → Nat → Bool
  | [], _ => true
  | c :: cs, k =>
    let k' := if c.toNat > 127 then k + 1 else k
    if k' > 3 then false else isEnglishGo cs k'

/-- `is_english` from the source: a name is "English enough" when at most 3
of its characters have a code point above 127 (`ord(character) > 127`). -/
def is_english (name : String) : Bool := isEnglishGo name.toList 0

-- ---------------------------------------------------------------
-- filter_english_and_free (LanguageFilter + PriceFilter application)
-- ---------------------------------------------------------------

/-- An append-style filtering loop (`for app in data: if p(app):
out.append(app)`) whose predicate can raise a Python exception. -/
def filterE (p : Row → Except PyErr Bool) : Dataset → Except PyErr Dataset
  | [] => .ok []
  | r :: rs => do
    let b ← p r
    let rest ← filterE p rs
    .ok (if b then r :: rest else rest)

/-- `filter_english_and_free` from the source: keep English-named apps
(name at Google column 0, Apple column 1), then keep free apps (Google
price at column 7 equal to the string `"0"`; Apple price at column 4 equal
to `"0.0"` or `"0"`).  Returns `(android_free, apple_free)`. -/
def filter_english_and_free (google_data apple_data : Dataset) :
    Except PyErr (Dataset × Dataset) := do
  let android_english ← filterE
    (fun app => do let name ← pyGetS app 0; .ok (is_english name)) google_data
  let ios_english ← filterE
    (fun app => do let name ← pyGetS app 1; .ok (is_english name)) apple_data
  let android_free ← filterE
    (fun app => do let price ← pyGetS app 7; .ok (decide (price = "0")))
    android_english
  let apple_free ← filterE
    (fun app => do
      let price ← pyGetS app 4
      .ok (decide (price = "0.0") || decide (price = "0")))
    ios_english
  .ok (android_free, apple_free)

-- ---------------------------------------------------------------
-- Step 7 of the source: freq_table and display_table
-- ---------------------------------------------------------------

/-- The counting loop of `freq_table`: for each row read `genre =
row[index]` and increment (or create) its entry in the table. -/
def countTableAux (index : Nat) :
    Dataset → List (String × Nat) → Except PyErr (List (String × Nat))
  | [], t => .ok t
  | row :: rest, t => do
    let genre ← pyGetS row index
    let t' :=
      match dictGet t genre with
      | some c => dictSet t genre (c + 1)
      | none => dictSet t genre 1
    countTableAux index rest t'

/-- `freq_table` from the source: count the values at `index` and convert
each count to a percentage of the total row count. -/
def freq_table (database : Dataset) (index : Nat) :
    Except PyErr (List (String × ℚ)) := do
  let table ← countTableAux index database []
  .ok (table.map (fun kv => (kv.1, ((kv.2 : ℚ) / (database.length : ℚ)) * 100)))

/-- Python's comparison on `(count, name)` tuples: lexicographic, first by
the count, then by the name (strings compared by code points). -/
def tupLe (a b : ℚ × String) : Prop :=
  a.1 < b.1 ∨ (a.1 = b.1 ∧ a.2 ≤ b.2)

instance (a b : ℚ × String) : Decidable (tupLe a b) := by
  unfold tupLe; infer_instance

/-- Insert an element into a descending-sorted list, keeping it sorted. -/
def insertD (x : ℚ × String) : List (ℚ × String) → List (ℚ × String)
  | [] => [x]
  | y :: ys => if tupLe y x then x :: y :: ys else y :: insertD x ys

/-- Model of Python `sorted(table_display, reverse=True)`: a sort by
descending tuple order.  Because the tuples of `display_table` have
pairwise-distinct names, the descending order is total and strict, so every
correct sorting algorithm (including CPython's timsort) produces this exact
list. -/
def sortedDesc : List (ℚ × String) → List (ℚ × String)
  | [] => []
  | x :: xs => insertD x (sortedDesc xs)

/-- `display_table` from the source, up to printing: build the frequency
table, swap each entry to a `(percentage, name)` tuple, and sort in reverse
order.  The source then prints this sorted list line by line. -/
def display_table (dataset : Dataset) (index : Nat) :
    Except PyErr (List (ℚ × String)) := do
  let table ← freq_table dataset index
  let table_display := table.map (fun kv => (kv.2, kv.1))
  .ok (sortedDesc table_display)

-- ---------------------------------------------------------------
-- compute_apple_genre_avg_ratings / compute_google_category_avg_installs
-- (AggregateAnalyzer)
-- ---------------------------------------------------------------

/-- The installs normalization of the source:
`installs.replace('+', '').replace(',', '')`, i.e. delete every `+` and `,`
character. -/
def stripPlusComma (s : String) : String :=
  String.mk (s.toList.filter (fun c => c != '+' && c != ','))

/-- The inner loop shared by the two average computations: scan all rows;
for a row whose field at `gIdx` equals `key`, parse the field at `vIdx`
(after normalization `norm`) and accumulate its sum and the row count. -/
def sumCountAux (gIdx vIdx : Nat) (norm : String → String) (key : String) :
    Dataset → ℚ → Nat → Except PyErr (ℚ × Nat)
  | [], total, len => .ok (total, len)
  | row :: rest, total, len => do
    let cat ← pyGetS row gIdx
    if cat = key then do
      let s ← pyGetS row vIdx
      let q ← pyFloatE (norm s)
      sumCountAux gIdx vIdx norm key rest (total + q) (len + 1)
    else sumCountAux gIdx vIdx norm key rest total len

/-- The outer loop shared by the two average computations: for each key of
the frequency table, compute its sum and count and store `total / len` in
the results dictionary. -/
def computeAvgAux (db : Dataset) (gIdx vIdx : Nat) (norm : String → String) :
    List String → List (String × ℚ) → Except PyErr (List (String × ℚ))
  | [], results => .ok results
  | k :: ks, results => do
    let p ← sumCountAux gIdx vIdx norm k db 0 0
    computeAvgAux db gIdx vIdx norm ks (dictSet results k (p.1 / (p.2 : ℚ)))

/-- Common shape of `compute_apple_genre_avg_ratings` and
`compute_google_category_avg_installs`, which are textually identical in
the source up to the grouping column, the value column and the
normalization applied to the value string: build the frequency table over
`gIdx`, then for each of its keys average the parsed values at `vIdx`. -/
def computeAvgCore (db : Dataset) (gIdx vIdx : Nat) (norm : String → String) :
    Except PyErr (List (String × ℚ)) := do
  let freq ← freq_table db gIdx
  computeAvgAux db gIdx vIdx norm (keysOf freq) []

/-- `compute_apple_genre_avg_ratings` from the source: average the rating
count (column 5, parsed directly by `float`) per genre (column 11). -/
def compute_apple_genre_avg_ratings (apple_data : Dataset) :
    Except PyErr (List (String × ℚ)) :=
  computeAvgCore apple_data 11 5 (fun s => s)

/-- `compute_google_category_avg_installs` from the source: average the
installs (column 5, `+` and `,` removed, then parsed by `float`) per
category (column 1). -/
def compute_google_category_avg_installs (google_data : Dataset) :
    Except PyErr (List (String × ℚ)) :=
  computeAvgCore google_data 1 5 stripPlusComma

/-- The rows of `db` whose field at `i` equals `k` (a group of the
aggregate analyzer). -/
def groupOf (db : Dataset) (i : Nat) (k : String) : Dataset :=
  db.filter (fun r => decide (r.getD i "" = k))

/-- The parsed numeric value of a row used by the aggregate analyzer:
field `vIdx`, normalized then parsed (0 when unparsable; the claims only
use it where parsing succeeds). -/
def pval (vIdx : Nat) (norm : String → String) (r : Row) : ℚ :=
  (pyFloat (norm (r.getD vIdx ""))).getD 0

-- ---------------------------------------------------------------
-- Concrete datasets used by the witnesses
-- ---------------------------------------------------------------

/-- The spec's end-to-end duplicate scenario: names `A, A, B` with review
counts `5, 9, 9`. -/
def dupEx : Dataset :=
  [["A", "c", "x", "5"], ["A", "c", "x", "9"], ["B", "c", "x", "9"]]

/-- A small Google Play dataset (8 fields per row): a free app, a paid app
and a non-English free app. -/
def googleEx : Dataset :=
  [["App1", "CAT", "x", "5", "x", "10+", "x", "0"],
   ["App2", "CAT", "x", "5", "x", "10+", "x", "1"],
   ["你好世界这里", "CAT", "x", "5", "x", "10+", "x", "0"]]

/-- A small Apple Store dataset (5 fields per row) with the four price
spellings `"0.0"`, `"0"`, `"0.00"`, `"1.99"`. -/
def appleEx : Dataset :=
  [["1", "Alpha", "x", "x", "0.0"],
   ["2", "Beta", "x", "x", "0"],
   ["3", "Gamma", "x", "x", "0.00"],
   ["4", "Delta", "x", "x", "1.99"]]

/-- A Google Play dataset for the averaging claims: two `CAT` rows with
installs `10,000+` and `20,000+`, one `TOOLS` row with installs `500+`. -/
def googleAvgEx : Dataset :=
  [["a", "CAT", "x", "1", "x", "10,000+", "x", "0"],
   ["b", "CAT", "x", "1", "x", "20,000+", "x", "0"],
   ["c", "TOOLS", "x", "1", "x", "500+", "x", "0"]]

/-- An Apple dataset for the averaging claims (12 fields per row): genre at
column 11, rating count at column 5. -/
def appleAvgEx : Dataset :=
  [["x", "n1", "x", "x", "x", "100", "x", "x", "x", "x", "x", "Games"],
   ["x", "n2", "x", "x", "x", "300", "x", "x", "x", "x", "x", "Games"],
   ["x", "n3", "x", "x", "x", "50", "x", "x", "x", "x", "x", "Music"]]

/-- A dataset whose review-count field does not parse as a number. -/
def badReviewEx : Dataset := [["A", "x", "y", "abc"]]

/-- A Google dataset whose installs field does not parse even after
normalization. -/
def badInstallsEx : Dataset := [["a", "CAT", "x", "1", "x", "n/a", "x", "0"]]

/-- A one-column dataset producing a frequency tie between `A` and `B`. -/
def freqEx : Dataset := [["A"], ["A"], ["B"], ["B"], ["C"]]

-- ===============================================================
-- Theorems
-- ===============================================================

-- Lemmas: the reversed-index deletion of delwrongdata equals filtering by
-- the reference length.

theorem badIdxs_shift (refLen : Nat) (d : Dataset) (i : Nat) :
    badIdxs refLen d (i + 1) = (badIdxs refLen d i).map (· + 1) := by
  induction d generalizing i with
  | nil => rfl
  | cons row rest ih =>
    by_cases h : row.length ≠ refLen <;> simp [badIdxs, h, ih]

theorem eraseAll_reverse_foldl (d : Dataset) (idxs : List Nat) :
    idxs.reverse.foldl (fun acc i => acc.eraseIdx i) d = eraseAll d idxs := by
  rw [List.foldl_reverse]
  rfl

theorem eraseAll_map_succ (a : Row) (d : Dataset) (idxs : List Nat) :
    eraseAll (a :: d) (idxs.map (· + 1)) = a :: eraseAll d idxs := by
  induction idxs with
  | nil => rfl
  | cons i idxs ih =>
    simp only [List.map_cons, eraseAll, List.foldr_cons] at *
    rw [ih]
    rfl

theorem eraseAll_badIdxs (refLen : Nat) (d : Dataset) :
    eraseAll d (badIdxs refLen d 0) =
      d.filter (fun r => decide (r.length = refLen)) := by
  induction d with
  | nil => rfl
  | cons a d ih =>
    by_cases h : a.length = refLen
    · have hb : badIdxs refLen (a :: d) 0 = (badIdxs refLen d 0).map (· + 1) := by
        simp [badIdxs, h, badIdxs_shift]
      rw [hb, eraseAll_map_succ, ih]
      simp [h]
    · have hb : badIdxs refLen (a :: d) 0 = 0 :: (badIdxs refLen d 0).map (· + 1) := by
        simp [badIdxs, h, badIdxs_shift]
      rw [hb]
      show (eraseAll (a :: d) ((badIdxs refLen d 0).map (· + 1))).eraseIdx 0 = _
      rw [eraseAll_map_succ, ih]
      simp [h, List.eraseIdx]

/-- `delwrongdata` on a non-empty dataset succeeds and returns exactly the
rows whose length matches the first row's length, in order. -/
theorem delwrongdata_eq_filter (r0 : Row) (rest : Dataset) :
    delwrongdata (r0 :: rest) =
      .ok ((r0 :: rest).filter (fun r => decide (r.length = r0.length))) := by
  show Except.ok _ = _
  rw [eraseAll_reverse_foldl, eraseAll_badIdxs]

/-- C2: for every non-empty dataset, `delwrongdata` returns exactly those
rows whose field count equals the field count of the first data row, in
their original relative order (the result is a sublist of the input). -/
theorem C2_row_validator (d : Dataset) (h : d ≠ []) :
    ∃ out, delwrongdata d = .ok out ∧
      out = d.filter (fun r => decide (r.length = (d.headD []).length)) ∧
      out.Sublist d := by
  obtain ⟨r0, rest, rfl⟩ : ∃ r0 rest, d = r0 :: rest := by
    cases d with
    | nil => exact absurd rfl h
    | cons a l => exact ⟨a, l, rfl⟩
  exact ⟨_, delwrongdata_eq_filter r0 rest, rfl, List.filter_sublist _⟩

/-- Witness for C2 on a concrete dataset with one short row. -/
theorem C2_row_validator_witness :
    ([["a", "b"], ["c"], ["d", "e"]] : Dataset) ≠ [] ∧
    ∃ out, delwrongdata [["a", "b"], ["c"], ["d", "e"]] = .ok out ∧
      out = ([["a", "b"], ["c"], ["d", "e"]] : Dataset).filter
        (fun r => decide (r.length = (([["a", "b"], ["c"], ["d", "e"]] : Dataset).headD []).length)) ∧
      out.Sublist [["a", "b"], ["c"], ["d", "e"]] :=
  ⟨by decide, C2_row_validator [["a", "b"], ["c"], ["d", "e"]] (by decide)⟩

/-- C6: on the empty dataset `delwrongdata` fails (Python raises
`IndexError` at `dataset[0]`, the failure the spec calls
`EmptyDatasetError`) rather than returning a dataset. -/
theorem C6_empty_dataset_fails : delwrongdata [] = .error .indexError := rfl

/-- C9: applying the row validator twice yields the same result as
applying it once. -/
theorem C9_row_validator_idempotent (d : Dataset) (h : d ≠ []) :
    ∃ out, delwrongdata d = .ok out ∧ delwrongdata out = .ok out := by
  obtain ⟨r0, rest, rfl⟩ : ∃ r0 rest, d = r0 :: rest := by
    cases d with
    | nil => exact absurd rfl h
    | cons a l => exact ⟨a, l, rfl⟩
  refine ⟨_, delwrongdata_eq_filter r0 rest, ?_⟩
  have hcons : (r0 :: rest).filter (fun r => decide (r.length = r0.length)) =
      r0 :: rest.filter (fun r => decide (r.length = r0.length)) := by
    simp
  rw [hcons, delwrongdata_eq_filter]
  congr 1
  refine List.filter_eq_self.mpr ?_
  intro a ha
  rcases List.mem_cons.mp ha with h1 | h1
  · subst h1; simp
  · exact (List.mem_filter.mp h1).2

/-- Witness for C9 on a concrete dataset with one short row. -/
theorem C9_row_validator_idempotent_witness :
    ([["a", "b"], ["c"], ["d", "e"]] : Dataset) ≠ [] ∧
    ∃ out, delwrongdata [["a", "b"], ["c"], ["d", "e"]] = .ok out ∧
      delwrongdata out = .ok out :=
  ⟨by decide, C9_row_validator_idempotent [["a", "b"], ["c"], ["d", "e"]] (by decide)⟩

-- Lemma: the early-exit counting loop of is_english decides whether the
-- number of characters with code point above 127 stays at most 3.

theorem isEnglishGo_count (cs : List Char) (k : Nat) (hk : k ≤ 3) :
    (isEnglishGo cs k = true ↔
      k + cs.countP (fun c => decide (127 < c.toNat)) ≤ 3) := by
  induction cs generalizing k with
  | nil =>
    simp [isEnglishGo]
    omega
  | cons c cs ih =>
    by_cases hc : 127 < c.toNat
    · by_cases hk3 : k = 3
      · subst hk3
        simp [isEnglishGo, hc, List.countP_cons]
      · have hk' : k + 1 ≤ 3 := by omega
        have hiff := ih (k + 1) hk'
        simp [isEnglishGo, hc, show ¬(k + 1 > 3) by omega, hiff, List.countP_cons]
        omega
    · have hiff := ih k hk
      simp [isEnglishGo, hc, show ¬(k > 3) by omega, hiff, List.countP_cons]

/-- C3: `is_english` returns `true` exactly when at most 3 characters of
the name have a code point above 127; in particular `"Instachat 😜"` is
classified English and `"爱奇艺PPS -《欢乐颂2》"` is not. -/
theorem C3_language_filter :
    (∀ name : String,
      (is_english name = true ↔
        name.toList.countP (fun c => decide (127 < c.toNat)) ≤ 3)) ∧
    is_english "Instachat 😜" = true ∧
    is_english "爱奇艺PPS -《欢乐颂2》" = false := by
  refine ⟨fun name => ?_, by decide, by decide⟩
  simpa [is_english] using isEnglishGo_count name.toList 0 (by omega)

-- Lemmas about the Python primitives.

theorem pyGetS_ok (r : Row) (i : Nat) (hi : i < r.length) :
    pyGetS r i = .ok (r.getD i "") := by
  simp [pyGetS, List.getD, List.getElem?_eq_getElem hi]

theorem okBind {α β : Type} (a : α) (f : α → Except PyErr β) :
    (Except.ok a >>= f) = f a := rfl

theorem errBind {α β : Type} (e : PyErr) (f : α → Except PyErr β) :
    ((Except.error e : Except PyErr α) >>= f) = Except.error e := rfl

theorem filterE_ok (p : Row → Except PyErr Bool) (q : Row → Bool) (l : Dataset)
    (h : ∀ r ∈ l, p r = .ok (q r)) :
    filterE p l = .ok (l.filter q) := by
  induction l with
  | nil => rfl
  | cons r rs ih =>
    have hr := h r (by simp)
    have hrs := ih (fun r' hr' => h r' (by simp [hr']))
    simp only [filterE, hr, hrs, okBind, List.filter_cons]

/-- C4: among English-named rows, `filter_english_and_free` keeps an Apple
row iff its price field (column 4) is literally the string `"0.0"` or
`"0"`, and keeps a Google row iff its price field (column 7) is literally
the string `"0"`; the comparison is string equality, so a price of
`"0.00"` is never kept. -/
theorem C4_price_filter (g a : Dataset)
    (hg : ∀ r ∈ g, 8 ≤ r.length) (ha : ∀ r ∈ a, 5 ≤ r.length) :
    ∃ gf af, filter_english_and_free g a = .ok (gf, af) ∧
      (∀ r, r ∈ af ↔ r ∈ a ∧ is_english (r.getD 1 "") = true ∧
        (r.getD 4 "" = "0.0" ∨ r.getD 4 "" = "0")) ∧
      (∀ r, r ∈ gf ↔ r ∈ g ∧ is_english (r.getD 0 "") = true ∧
        r.getD 7 "" = "0") ∧
      (∀ r ∈ a, r.getD 4 "" = "0.00" → r ∉ af) := by
  have h1 : filterE (fun app => do let name ← pyGetS app 0; .ok (is_english name)) g =
      .ok (g.filter (fun r => is_english (r.getD 0 ""))) := by
    refine filterE_ok _ _ _ (fun r hr => ?_)
    rw [pyGetS_ok r 0 (by have := hg r hr; omega)]
    rfl
  have h2 : filterE (fun app => do let name ← pyGetS app 1; .ok (is_english name)) a =
      .ok (a.filter (fun r => is_english (r.getD 1 ""))) := by
    refine filterE_ok _ _ _ (fun r hr => ?_)
    rw [pyGetS_ok r 1 (by have := ha r hr; omega)]
    rfl
  have h3 : filterE (fun app => do let price ← pyGetS app 7; .ok (decide (price = "0")))
      (g.filter (fun r => is_english (r.getD 0 ""))) =
      .ok ((g.filter (fun r => is_english (r.getD 0 ""))).filter
        (fun r => decide (r.getD 7 "" = "0"))) := by
    refine filterE_ok _ _ _ (fun r hr => ?_)
    rw [pyGetS_ok r 7 (by have := hg r (List.mem_filter.mp hr).1; omega)]
    rfl
  have h4 : filterE (fun app => do
        let price ← pyGetS app 4
        .ok (decide (price = "0.0") || decide (price = "0")))
      (a.filter (fun r => is_english (r.getD 1 ""))) =
      .ok ((a.filter (fun r => is_english (r.getD 1 ""))).filter
        (fun r => decide (r.getD 4 "" = "0.0") || decide (r.getD 4 "" = "0"))) := by
    refine filterE_ok _ _ _ (fun r hr => ?_)
    rw [pyGetS_ok r 4 (by have := ha r (List.mem_filter.mp hr).1; omega)]
    rfl
  refine ⟨(g.filter (fun r => is_english (r.getD 0 ""))).filter
      (fun r => decide (r.getD 7 "" = "0")),
    (a.filter (fun r => is_english (r.getD 1 ""))).filter
      (fun r => decide (r.getD 4 "" = "0.0") || decide (r.getD 4 "" = "0")),
    ?_, ?_, ?_, ?_⟩
  · simp only [filter_english_and_free, h1, h2, h3, h4, okBind]
  · intro r
    simp only [List.mem_filter, Bool.or_eq_true, decide_eq_true_eq]
    tauto
  · intro r
    simp only [List.mem_filter, decide_eq_true_eq]
    tauto
  · intro r hra hprice hmem
    rcases List.mem_filter.mp hmem with ⟨h5, h6⟩
    simp only [Bool.or_eq_true, decide_eq_true_eq] at h6
    rw [hprice] at h6
    rcases h6 with h6 | h6 <;> exact absurd h6 (by decide)

/-- Witness for C4 on concrete Google and Apple datasets containing free,
paid, `"0.00"`-priced and non-English rows. -/
theorem C4_price_filter_witness :
    ((∀ r ∈ googleEx, 8 ≤ r.length) ∧ (∀ r ∈ appleEx, 5 ≤ r.length)) ∧
    (∃ gf af, filter_english_and_free googleEx appleEx = .ok (gf, af) ∧
      (∀ r, r ∈ af ↔ r ∈ appleEx ∧ is_english (r.getD 1 "") = true ∧
        (r.getD 4 "" = "0.0" ∨ r.getD 4 "" = "0")) ∧
      (∀ r, r ∈ gf ↔ r ∈ googleEx ∧ is_english (r.getD 0 "") = true ∧
        r.getD 7 "" = "0") ∧
      (∀ r ∈ appleEx, r.getD 4 "" = "0.00" → r ∉ af)) :=
  ⟨⟨by decide, by decide⟩, C4_price_filter googleEx appleEx (by decide) (by decide)⟩

-- Dictionary lemmas.

theorem dictGet_dictSet_same {β : Type} (m : List (String × β)) (k : String) (v : β) :
    dictGet (dictSet m k v) k = some v := by
  induction m with
  | nil => simp [dictSet, dictGet]
  | cons kv m ih =>
    obtain ⟨k', v'⟩ := kv
    by_cases h : k' = k
    · subst h; simp [dictSet, dictGet]
    · simp [dictSet, dictGet, h, ih]

theorem dictGet_dictSet_other {β : Type} (m : List (String × β)) (k k' : String) (v : β)
    (h : k ≠ k') : dictGet (dictSet m k v) k' = dictGet m k' := by
  induction m with
  | nil => simp [dictSet, dictGet, h]
  | cons kv m ih =>
    obtain ⟨k0, v0⟩ := kv
    by_cases h0 : k0 = k
    · subst h0; simp [dictSet, dictGet, h]
    · by_cases h1 : k0 = k' <;> simp [dictSet, dictGet, h0, h1, ih, Ne.symm h]

-- Running-maximum lemmas.

theorem mergeMax_some (qs : List ℚ) : ∀ v, mergeMax (some v) qs = some (qs.foldl max v) := by
  induction qs with
  | nil => intro v; rfl
  | cons q qs ih => intro v; simp [mergeMax, List.foldl_cons, ih]

theorem mergeMax_none_eq (q : ℚ) (qs : List ℚ) :
    mergeMax none (q :: qs) = some (qmaxD (q :: qs)) := by
  simp [mergeMax, mergeMax_some, qmaxD]

theorem le_foldl_max (l : List ℚ) : ∀ a : ℚ, a ≤ l.foldl max a := by
  induction l with
  | nil => intro a; simp
  | cons q l ih => intro a; exact le_trans (le_max_left a q) (ih (max a q))

theorem mem_le_foldl_max (l : List ℚ) : ∀ a q, q ∈ l → q ≤ l.foldl max a := by
  induction l with
  | nil => intro a q hq; cases hq
  | cons x l ih =>
    intro a q hq
    rcases List.mem_cons.mp hq with rfl | hq
    · exact le_trans (le_max_right a q) (le_foldl_max l (max a q))
    · exact ih (max a x) q hq

theorem foldl_max_mem (l : List ℚ) : ∀ a, l.foldl max a ∈ a :: l := by
  induction l with
  | nil => intro a; simp
  | cons q l ih =>
    intro a
    simp only [List.foldl_cons]
    rcases List.mem_cons.mp (ih (max a q)) with h | h
    · rw [h]
      rcases max_choice a q with h' | h' <;> rw [h'] <;> simp
    · exact List.mem_cons_of_mem _ (List.mem_cons_of_mem _ h)

theorem qmaxD_mem (l : List ℚ) (h : l ≠ []) : qmaxD l ∈ l := by
  cases l with
  | nil => exact absurd rfl h
  | cons q l => simpa [qmaxD] using foldl_max_mem l q

theorem qmaxD_ge (l : List ℚ) (q : ℚ) (hq : q ∈ l) : q ≤ qmaxD l := by
  cases l with
  | nil => cases hq
  | cons x l =>
    rcases List.mem_cons.mp hq with rfl | h
    · exact le_foldl_max l q
    · exact mem_le_foldl_max l x q h

-- The reviews_max dictionary built by createdicodup holds, for every key of
-- the accumulator or name in the data, the running maximum of the review
-- counts.

theorem createdicodupAux_ok (d : Dataset) (m : Dict)
    (h : ∀ r ∈ d, 4 ≤ r.length ∧ (pyFloat (r.getD 3 "")).isSome) :
    ∃ m', createdicodupAux d m = .ok m' ∧
      ∀ k, dictGet m' k = mergeMax (dictGet m k) (revsOf d k) := by
  induction d generalizing m with
  | nil =>
    exact ⟨m, rfl, fun k => by cases hg : dictGet m k <;> simp [hg, revsOf, occs, mergeMax]⟩
  | cons app rest ih =>
    obtain ⟨hlen, hparse⟩ := h app (List.mem_cons_self app rest)
    have hget0 : pyGetS app 0 = .ok (rname app) := pyGetS_ok app 0 (by omega)
    have hget3 : pyGetS app 3 = .ok (app.getD 3 "") := pyGetS_ok app 3 (by omega)
    obtain ⟨q, hq⟩ := Option.isSome_iff_exists.mp hparse
    have hrrev : rrev app = q := by
      show (pyFloat (app.getD 3 "")).getD 0 = q
      rw [hq]
      rfl
    have hFE : pyFloatE (app.getD 3 "") = .ok (rrev app) := by
      rw [hrrev]
      show (match pyFloat (app.getD 3 "") with
        | some q => Except.ok q
        | none => Except.error PyErr.valueError) = Except.ok q
      rw [hq]
    have hrest := fun r hr => h r (List.mem_cons_of_mem app hr)
    rcases hmg : dictGet m (rname app) with _ | v
    · obtain ⟨m', hok, hchar⟩ := ih (dictSet m (rname app) (rrev app)) hrest
      refine ⟨m', ?_, fun k => ?_⟩
      · rw [show createdicodupAux (app :: rest) m =
            createdicodupAux rest (dictSet m (rname app) (rrev app)) by
          simp only [createdicodupAux, hget0, hget3, hFE, okBind, hmg]]
        exact hok
      · rw [hchar k]
        by_cases hk : rname app = k
        · subst hk
          have hrv : revsOf (app :: rest) (rname app) =
              rrev app :: revsOf rest (rname app) := by
            simp [revsOf, occs, List.filter_cons]
          rw [dictGet_dictSet_same, hrv, hmg]
          rfl
        · have hrv : revsOf (app :: rest) k = revsOf rest k := by
            simp [revsOf, occs, List.filter_cons, hk]
          rw [dictGet_dictSet_other m (rname app) k _ hk, hrv]
    · by_cases hlt : v < rrev app
      · obtain ⟨m', hok, hchar⟩ := ih (dictSet m (rname app) (rrev app)) hrest
        refine ⟨m', ?_, fun k => ?_⟩
        · rw [show createdicodupAux (app :: rest) m =
              createdicodupAux rest (dictSet m (rname app) (rrev app)) by
            simp only [createdicodupAux, hget0, hget3, hFE, okBind, hmg, if_pos hlt]]
          exact hok
        · rw [hchar k]
          by_cases hk : rname app = k
          · subst hk
            have hrv : revsOf (app :: rest) (rname app) =
                rrev app :: revsOf rest (rname app) := by
              simp [revsOf, occs, List.filter_cons]
            rw [dictGet_dictSet_same, hrv, hmg]
            have hmx : max v (rrev app) = rrev app := max_eq_right hlt.le
            simp [mergeMax, hmx]
          · have hrv : revsOf (app :: rest) k = revsOf rest k := by
              simp [revsOf, occs, List.filter_cons, hk]
            rw [dictGet_dictSet_other m (rname app) k _ hk, hrv]
      · obtain ⟨m', hok, hchar⟩ := ih m hrest
        refine ⟨m', ?_, fun k => ?_⟩
        · rw [show createdicodupAux (app :: rest) m = createdicodupAux rest m by
            simp only [createdicodupAux, hget0, hget3, hFE, okBind, hmg, if_neg hlt]]
          exact hok
        · rw [hchar k]
          by_cases hk : rname app = k
          · subst hk
            have hrv : revsOf (app :: rest) (rname app) =
                rrev app :: revsOf rest (rname app) := by
              simp [revsOf, occs, List.filter_cons]
            rw [hrv, hmg]
            have hmx : max v (rrev app) = v := max_eq_left (not_lt.mp hlt)
            simp [mergeMax, hmx]
          · have hrv : revsOf (app :: rest) k = revsOf rest k := by
              simp [revsOf, occs, List.filter_cons, hk]
            rw [hrv]

-- Lemmas about the pure mirror of the deldupdata loop.

theorem dedupGo_subset (idx : Dict) (rest : Dataset) :
    ∀ added r, r ∈ dedupGo idx rest added → r ∈ rest := by
  induction rest with
  | nil => intro added r h; cases h
  | cons app rest ih =>
    intro added r h
    by_cases h1 : rname app ∈ added
    · exact List.mem_cons_of_mem _ (ih added r (by simpa [dedupGo, h1] using h))
    · by_cases h2 : dictGet idx (rname app) = some (rrev app)
      · rcases List.mem_cons.mp (by simpa [dedupGo, h1, h2] using h) with rfl | h3
        · exact List.mem_cons_self _ _
        · exact List.mem_cons_of_mem _ (ih _ r h3)
      · exact List.mem_cons_of_mem _ (ih added r (by simpa [dedupGo, h1, h2] using h))

theorem dedupGo_filter (idx : Dict) (rest : Dataset) :
    ∀ (added : List String) (name : String),
      (dedupGo idx rest added).filter (fun r => decide (rname r = name)) =
        if name ∈ added then []
        else
          match rest.find? (fun r =>
            decide (rname r = name) && decide (dictGet idx (rname r) = some (rrev r))) with
          | some r => [r]
          | none => [] := by
  induction rest with
  | nil =>
    intro added name
    by_cases h : name ∈ added <;> simp [dedupGo, h, List.find?]
  | cons app rest ih =>
    intro added name
    by_cases hmem : rname app ∈ added
    · rw [show dedupGo idx (app :: rest) added = dedupGo idx rest added by
        simp [dedupGo, hmem]]
      rw [ih added name]
      by_cases hn : name ∈ added
      · simp [hn]
      · have hne : ¬(rname app = name) := fun hh => hn (hh ▸ hmem)
        rw [if_neg hn, if_neg hn,
          List.find?_cons_of_neg _ (by simp [hne])]
    · by_cases hkeep : dictGet idx (rname app) = some (rrev app)
      · rw [show dedupGo idx (app :: rest) added =
            app :: dedupGo idx rest (added ++ [rname app]) by
          simp [dedupGo, hmem, hkeep]]
        by_cases hn : rname app = name
        · have hnadd : name ∉ added := fun hh => hmem (hn ▸ hh)
          rw [List.filter_cons_of_pos (by simp [hn])]
          rw [ih (added ++ [rname app]) name]
          rw [if_pos (by simp [hn]), if_neg hnadd,
            List.find?_cons_of_pos _ (by subst hn; simp [hkeep])]
        · rw [List.filter_cons_of_neg (by simp [hn])]
          rw [ih (added ++ [rname app]) name]
          have hne : name ≠ rname app := fun hh => hn hh.symm
          have hmemiff : (name ∈ added ++ [rname app]) ↔ name ∈ added := by
            simp [hne]
          by_cases hadd : name ∈ added
          · rw [if_pos (hmemiff.mpr hadd), if_pos hadd]
          · rw [if_neg (fun hh => hadd (hmemiff.mp hh)), if_neg hadd,
              List.find?_cons_of_neg _ (by simp [hn])]
      · rw [show dedupGo idx (app :: rest) added = dedupGo idx rest added by
          simp [dedupGo, hmem, hkeep]]
        rw [ih added name]
        by_cases hadd : name ∈ added
        · simp [hadd]
        · rw [if_neg hadd, if_neg hadd]
          by_cases hn : rname app = name
          · rw [List.find?_cons_of_neg _ (by subst hn; simp [hkeep])]
          · rw [List.find?_cons_of_neg _ (by simp [hn])]

-- The deldupdata loop agrees with its pure mirror when every row parses
-- and every name is present in the index.

theorem deldupdataAux_ok (idx : Dict) (rest : Dataset) :
    ∀ (clean : Dataset) (added : List String),
      (∀ r ∈ rest, 4 ≤ r.length ∧ (pyFloat (r.getD 3 "")).isSome ∧
        (dictGet idx (rname r)).isSome) →
      deldupdataAux idx rest clean added = .ok (clean ++ dedupGo idx rest added) := by
  induction rest with
  | nil => intro clean added _; simp [deldupdataAux, dedupGo]
  | cons app rest ih =>
    intro clean added h
    obtain ⟨hlen, hparse, hidx⟩ := h app (List.mem_cons_self _ _)
    have hget0 : pyGetS app 0 = .ok (rname app) := pyGetS_ok app 0 (by omega)
    have hget3 : pyGetS app 3 = .ok (app.getD 3 "") := pyGetS_ok app 3 (by omega)
    obtain ⟨q, hq⟩ := Option.isSome_iff_exists.mp hparse
    have hrrev : rrev app = q := by
      show (pyFloat (app.getD 3 "")).getD 0 = q
      rw [hq]
      rfl
    have hFE : pyFloatE (app.getD 3 "") = .ok (rrev app) := by
      rw [hrrev]
      show (match pyFloat (app.getD 3 "") with
        | some q => Except.ok q
        | none => Except.error PyErr.valueError) = Except.ok q
      rw [hq]
    have hrest := fun r hr => h r (List.mem_cons_of_mem _ hr)
    obtain ⟨v, hv⟩ := Option.isSome_iff_exists.mp hidx
    by_cases hmem : rname app ∈ added
    · rw [show deldupdataAux idx (app :: rest) clean added =
          deldupdataAux idx rest clean added by
        simp only [deldupdataAux, hget0, hget3, hFE, okBind, if_pos hmem]]
      rw [ih clean added hrest]
      rw [show dedupGo idx (app :: rest) added = dedupGo idx rest added by
        simp [dedupGo, hmem]]
    · by_cases heq : v = rrev app
      · rw [show deldupdataAux idx (app :: rest) clean added =
            deldupdataAux idx rest (clean ++ [app]) (added ++ [rname app]) by
          simp only [deldupdataAux, hget0, hget3, hFE, okBind, if_neg hmem,
            pyLookup, hv, if_pos heq]]
        rw [ih _ _ hrest]
        rw [show dedupGo idx (app :: rest) added =
            app :: dedupGo idx rest (added ++ [rname app]) by
          simp [dedupGo, hmem, hv, heq]]
        simp
      · rw [show deldupdataAux idx (app :: rest) clean added =
            deldupdataAux idx rest clean added by
          simp only [deldupdataAux, hget0, hget3, hFE, okBind, if_neg hmem,
            pyLookup, hv, if_neg heq]]
        rw [ih clean added hrest]
        rw [show dedupGo idx (app :: rest) added = dedupGo idx rest added by
          simp [dedupGo, hmem, hv, heq]]

-- The combined search of dedupGo coincides with searching the rows of one
-- name for the indexed maximum.

theorem find?_occs (idx : Dict) (name : String) (M : ℚ)
    (hM : dictGet idx name = some M) (d : Dataset) :
    d.find? (fun r =>
        decide (rname r = name) && decide (dictGet idx (rname r) = some (rrev r))) =
      (occs d name).find? (fun r => decide (rrev r = M)) := by
  induction d with
  | nil => rfl
  | cons app rest ih =>
    by_cases hn : rname app = name
    · have h1 : dictGet idx (rname app) = some M := by rw [hn]; exact hM
      by_cases hr : rrev app = M
      · have hocc : occs (app :: rest) name = app :: occs rest name := by
          simp [occs, List.filter_cons, hn]
        rw [List.find?_cons_of_pos _ (by subst hn; simp [h1, hr]), hocc,
          List.find?_cons_of_pos _ (by simp [hr])]
      · have hocc : occs (app :: rest) name = app :: occs rest name := by
          simp [occs, List.filter_cons, hn]
        rw [List.find?_cons_of_neg _ (by subst hn; simp [h1, Ne.symm hr]), hocc,
          List.find?_cons_of_neg _ (by simp [hr])]
        exact ih
    · have hocc : occs (app :: rest) name = occs rest name := by
        simp [occs, List.filter_cons, hn]
      rw [List.find?_cons_of_neg _ (by simp [hn]), hocc]
      exact ih

-- createdicodup succeeds and indexes every name by its maximum review count.

theorem createdicodup_max (d : Dataset)
    (h : ∀ r ∈ d, 4 ≤ r.length ∧ (pyFloat (r.getD 3 "")).isSome) :
    ∃ idx, createdicodup d = .ok idx ∧
      ∀ name ∈ d.map rname, dictGet idx name = some (maxRevOf d name) := by
  obtain ⟨idx, hok, hchar⟩ := createdicodupAux_ok d [] h
  refine ⟨idx, hok, fun name hname => ?_⟩
  obtain ⟨r, hrd, hrn⟩ := List.mem_map.mp hname
  have hocc : r ∈ occs d name := List.mem_filter.mpr ⟨hrd, by simp [hrn]⟩
  have hne : revsOf d name ≠ [] := by
    intro hemp
    rw [revsOf, List.map_eq_nil_iff] at hemp
    rw [hemp] at hocc
    cases hocc
  rw [hchar name]
  rcases hrv : revsOf d name with _ | ⟨q, qs⟩
  · exact absurd hrv hne
  · show mergeMax none (q :: qs) = some (maxRevOf d name)
    rw [mergeMax_none_eq, maxRevOf, hrv]

-- deldupdata succeeds and equals the pure mirror when every name is indexed.

theorem deldupdata_eq_dedupGo (d : Dataset) (idx : Dict)
    (h : ∀ r ∈ d, 4 ≤ r.length ∧ (pyFloat (r.getD 3 "")).isSome)
    (hidx : ∀ name ∈ d.map rname, (dictGet idx name).isSome) :
    deldupdata d idx = .ok (dedupGo idx d []) := by
  have hb := deldupdataAux_ok idx d [] []
    (fun r hr => ⟨(h r hr).1, (h r hr).2, hidx (rname r) (List.mem_map_of_mem rname hr)⟩)
  rw [show deldupdata d idx = deldupdataAux idx d [] [] from rfl, hb]
  simp

/-- C1: for every dataset whose review-count fields (column 3) all parse,
`createdicodup` followed by `deldupdata` returns, for each distinct name
(column 0), exactly one row; its review count is the maximum over all
occurrences of that name, and it is the first row in original input order
attaining that maximum. -/
theorem C1_duplicate_resolver (d : Dataset)
    (h : ∀ r ∈ d, 4 ≤ r.length ∧ (pyFloat (r.getD 3 "")).isSome) :
    ∃ idx out, createdicodup d = .ok idx ∧ deldupdata d idx = .ok out ∧
      (∀ r ∈ out, r ∈ d) ∧
      ∀ name ∈ d.map rname, ∃ r,
        out.filter (fun r' => decide (rname r' = name)) = [r] ∧
        rname r = name ∧
        rrev r = maxRevOf d name ∧
        (∀ r' ∈ occs d name, rrev r' ≤ rrev r) ∧
        (occs d name).find? (fun r' => decide (rrev r' = maxRevOf d name)) = some r := by
  obtain ⟨idx, hok, hmax⟩ := createdicodup_max d h
  have hidx : ∀ name ∈ d.map rname, (dictGet idx name).isSome := by
    intro name hn
    rw [hmax name hn]
    rfl
  have hdel := deldupdata_eq_dedupGo d idx h hidx
  refine ⟨idx, dedupGo idx d [], hok, hdel,
    fun r hr => dedupGo_subset idx d [] r hr, ?_⟩
  intro name hname
  have hM := hmax name hname
  have hfilter := dedupGo_filter idx d [] name
  rw [if_neg (List.not_mem_nil name),
    find?_occs idx name (maxRevOf d name) hM d] at hfilter
  obtain ⟨r0, hr0d, hr0n⟩ := List.mem_map.mp hname
  have hocc0 : r0 ∈ occs d name := List.mem_filter.mpr ⟨hr0d, by simp [hr0n]⟩
  have hne : revsOf d name ≠ [] := by
    intro hemp
    rw [revsOf, List.map_eq_nil_iff] at hemp
    rw [hemp] at hocc0
    cases hocc0
  have hmem_max : maxRevOf d name ∈ revsOf d name := qmaxD_mem _ hne
  obtain ⟨r1, hr1occ, hr1rev⟩ := List.mem_map.mp hmem_max
  have hfind_some : ((occs d name).find?
      (fun r' => decide (rrev r' = maxRevOf d name))).isSome := by
    rw [List.find?_isSome]
    exact ⟨r1, hr1occ, by simp [hr1rev]⟩
  obtain ⟨r, hfind⟩ := Option.isSome_iff_exists.mp hfind_some
  rw [hfind] at hfilter
  have hrocc : r ∈ occs d name := List.mem_of_find?_eq_some hfind
  have hrn : rname r = name := by
    have := List.mem_filter.mp hrocc
    simpa using this.2
  have hrrevmax : rrev r = maxRevOf d name := by
    have := List.find?_some hfind
    simpa using this
  refine ⟨r, hfilter.trans rfl, hrn, hrrevmax, ?_, hfind⟩
  intro r' hr'
  rw [hrrevmax]
  exact qmaxD_ge _ _ (List.mem_map_of_mem rrev hr')

/-- Witness for C1 on the spec's duplicate scenario (names `A, A, B`,
review counts `5, 9, 9`). -/
theorem C1_duplicate_resolver_witness :
    (∀ r ∈ dupEx, 4 ≤ r.length ∧ (pyFloat (r.getD 3 "")).isSome) ∧
    (∃ idx out, createdicodup dupEx = .ok idx ∧ deldupdata dupEx idx = .ok out ∧
      (∀ r ∈ out, r ∈ dupEx) ∧
      ∀ name ∈ dupEx.map rname, ∃ r,
        out.filter (fun r' => decide (rname r' = name)) = [r] ∧
        rname r = name ∧
        rrev r = maxRevOf dupEx name ∧
        (∀ r' ∈ occs dupEx name, rrev r' ≤ rrev r) ∧
        (occs dupEx name).find?
          (fun r' => decide (rrev r' = maxRevOf dupEx name)) = some r) :=
  ⟨by decide, C1_duplicate_resolver dupEx (by decide)⟩

/-- C10: every name looked up during the `deldupdata` scan is a key of the
index built by `createdicodup` on the same dataset, so the lookup is always
defined and the run never fails with a missing-key error. -/
theorem C10_lookup_safety (d : Dataset)
    (h : ∀ r ∈ d, 4 ≤ r.length ∧ (pyFloat (r.getD 3 "")).isSome) :
    ∃ idx, createdicodup d = .ok idx ∧
      (∀ r ∈ d, (dictGet idx (rname r)).isSome) ∧
      ∃ out, deldupdata d idx = .ok out := by
  obtain ⟨idx, hok, hmax⟩ := createdicodup_max d h
  have hidx : ∀ name ∈ d.map rname, (dictGet idx name).isSome := by
    intro name hn
    rw [hmax name hn]
    rfl
  exact ⟨idx, hok, fun r hr => hidx (rname r) (List.mem_map_of_mem rname hr),
    dedupGo idx d [], deldupdata_eq_dedupGo d idx h hidx⟩

/-- Witness for C10 on the spec's duplicate scenario. -/
theorem C10_lookup_safety_witness :
    (∀ r ∈ dupEx, 4 ≤ r.length ∧ (pyFloat (r.getD 3 "")).isSome) ∧
    (∃ idx, createdicodup dupEx = .ok idx ∧
      (∀ r ∈ dupEx, (dictGet idx (rname r)).isSome) ∧
      ∃ out, deldupdata dupEx idx = .ok out) :=
  ⟨by decide, C10_lookup_safety dupEx (by decide)⟩

-- createdicodup raises ValueError exactly when some review count fails to
-- parse (given that every row has the subscripted fields).

theorem createdicodupAux_err (d : Dataset) :
    ∀ m : Dict, (∀ r ∈ d, 4 ≤ r.length) →
      (createdicodupAux d m = .error .valueError ↔
        ∃ r ∈ d, pyFloat (r.getD 3 "") = none) := by
  induction d with
  | nil =>
    intro m _
    simp [createdicodupAux]
  | cons app rest ih =>
    intro m h
    have hlen := h app (List.mem_cons_self _ _)
    have hget0 : pyGetS app 0 = .ok (rname app) := pyGetS_ok app 0 (by omega)
    have hget3 : pyGetS app 3 = .ok (app.getD 3 "") := pyGetS_ok app 3 (by omega)
    have hrest := fun r hr => h r (List.mem_cons_of_mem _ hr)
    rcases hp : pyFloat (app.getD 3 "") with _ | q
    · have herr : createdicodupAux (app :: rest) m = .error .valueError := by
        simp only [createdicodupAux, hget0, hget3, okBind, pyFloatE, hp, errBind]
      exact iff_of_true herr ⟨app, List.mem_cons_self _ _, hp⟩
    · have hFE : pyFloatE (app.getD 3 "") = .ok q := by
        show (match pyFloat (app.getD 3 "") with
          | some q => Except.ok q
          | none => Except.error PyErr.valueError) = Except.ok q
        rw [hp]
      simp only [createdicodupAux, hget0, hget3, hFE, okBind]
      rw [ih _ hrest]
      constructor
      · rintro ⟨r, hr, hbad⟩
        exact ⟨r, List.mem_cons_of_mem _ hr, hbad⟩
      · rintro ⟨r, hr, hbad⟩
        rcases List.mem_cons.mp hr with rfl | hr
        · rw [hp] at hbad; cases hbad
        · exact ⟨r, hr, hbad⟩

-- Key-set lemmas for dictionaries and the frequency table.

theorem dictGet_isSome_iff {β : Type} (m : List (String × β)) (k : String) :
    (dictGet m k).isSome ↔ k ∈ keysOf m := by
  induction m with
  | nil => simp [dictGet, keysOf]
  | cons kv m ih =>
    obtain ⟨k0, v0⟩ := kv
    by_cases h : k0 = k
    · subst h; simp [dictGet, keysOf]
    · simp [dictGet, keysOf, h, ih, Ne.symm h]

theorem keysOf_dictSet_new {β : Type} (m : List (String × β)) (k : String) (v : β) :
    k ∉ keysOf m → keysOf (dictSet m k v) = keysOf m ++ [k] := by
  induction m with
  | nil => intro _; rfl
  | cons kv m ih =>
    intro h
    obtain ⟨k0, v0⟩ := kv
    have h1 : k0 ≠ k := (List.ne_of_not_mem_cons h).symm
    have h2 : k ∉ keysOf m := List.not_mem_of_not_mem_cons h
    simp only [dictSet, if_neg h1, keysOf, List.map_cons, List.cons_append,
      List.cons.injEq, true_and]
    exact ih h2

theorem keysOf_dictSet_mem {β : Type} (m : List (String × β)) (k : String) (v : β) :
    ∀ {c}, dictGet m k = some c → keysOf (dictSet m k v) = keysOf m := by
  induction m with
  | nil => intro c h; cases h
  | cons kv m ih =>
    intro c h
    obtain ⟨k0, v0⟩ := kv
    by_cases h0 : k0 = k
    · subst h0; simp [dictSet, keysOf]
    · simp only [dictGet, if_neg h0] at h
      simp only [dictSet, if_neg h0, keysOf, List.map_cons, List.cons.injEq, true_and]
      exact ih h

theorem countTableAux_keys (index : Nat) (d : Dataset) :
    ∀ (t : List (String × Nat)),
      (∀ r ∈ d, index < r.length) →
      ∃ t', countTableAux index d t = .ok t' ∧
        (∀ k, k ∈ keysOf t' ↔ k ∈ keysOf t ∨ k ∈ d.map (fun r => r.getD index "")) ∧
        ((keysOf t).Nodup → (keysOf t').Nodup) := by
  induction d with
  | nil =>
    intro t _
    exact ⟨t, rfl, fun k => by simp, id⟩
  | cons row rest ih =>
    intro t h
    have hg := h row (List.mem_cons_self _ _)
    have hget : pyGetS row index = .ok (row.getD index "") := pyGetS_ok _ _ hg
    have hrest := fun r hr => h r (List.mem_cons_of_mem _ hr)
    rcases hdg : dictGet t (row.getD index "") with _ | c
    · have hnotmem : row.getD index "" ∉ keysOf t := by
        intro hmem
        have := (dictGet_isSome_iff t (row.getD index "")).mpr hmem
        rw [hdg] at this
        cases this
      obtain ⟨t', hok, hkeys, hnd⟩ := ih (dictSet t (row.getD index "") 1) hrest
      refine ⟨t', ?_, ?_, ?_⟩
      · simp only [countTableAux, hget, okBind, hdg]
        exact hok
      · intro k
        rw [hkeys k, keysOf_dictSet_new t (row.getD index "") 1 hnotmem]
        simp only [List.mem_append, List.mem_singleton, List.map_cons, List.mem_cons]
        tauto
      · intro hndt
        refine hnd ?_
        rw [keysOf_dictSet_new t (row.getD index "") 1 hnotmem, List.nodup_append]
        exact ⟨hndt, List.nodup_singleton _,
          fun a ha hb => hnotmem (by rwa [List.mem_singleton.mp hb] at ha)⟩
    · have hmem : row.getD index "" ∈ keysOf t := by
        refine (dictGet_isSome_iff t (row.getD index "")).mp ?_
        rw [hdg]
        rfl
      obtain ⟨t', hok, hkeys, hnd⟩ := ih (dictSet t (row.getD index "") (c + 1)) hrest
      refine ⟨t', ?_, ?_, ?_⟩
      · simp only [countTableAux, hget, okBind, hdg]
        exact hok
      · intro k
        rw [hkeys k, keysOf_dictSet_mem t (row.getD index "") (c + 1) hdg]
        simp only [List.map_cons, List.mem_cons]
        constructor
        · rintro (hk | hk)
          · exact Or.inl hk
          · exact Or.inr (Or.inr hk)
        · rintro (hk | hk | hk)
          · exact Or.inl hk
          · exact Or.inl (hk ▸ hmem)
          · exact Or.inr hk
      · intro hndt
        refine hnd ?_
        rwa [keysOf_dictSet_mem t (row.getD index "") (c + 1) hdg]

theorem keysOf_map_snd {β γ : Type} (t : List (String × β)) (f : String × β → γ) :
    keysOf (t.map (fun kv => (kv.1, f kv))) = keysOf t := by
  induction t with
  | nil => rfl
  | cons kv t ih =>
    simp only [keysOf, List.map_cons] at *
    rw [ih]

theorem freq_table_keys (db : Dataset) (index : Nat)
    (h : ∀ r ∈ db, index < r.length) :
    ∃ t, freq_table db index = .ok t ∧
      (∀ k, k ∈ keysOf t ↔ k ∈ db.map (fun r => r.getD index "")) ∧
      (keysOf t).Nodup := by
  obtain ⟨t0, hok, hkeys, hnd⟩ := countTableAux_keys index db [] h
  refine ⟨t0.map (fun kv => (kv.1, ((kv.2 : ℚ) / (db.length : ℚ)) * 100)), ?_, ?_, ?_⟩
  · simp only [freq_table, hok, okBind]
  · intro k
    rw [keysOf_map_snd, hkeys k]
    simp [keysOf]
  · rw [keysOf_map_snd]
    exact hnd (by simp [keysOf])

-- The inner averaging loop sums and counts the group of a key.

theorem sumCountAux_ok (gIdx vIdx : Nat) (norm : String → String) (key : String)
    (db : Dataset) :
    (∀ r ∈ db, gIdx < r.length ∧ vIdx < r.length) →
    (∀ r ∈ db, r.getD gIdx "" = key → (pyFloat (norm (r.getD vIdx ""))).isSome) →
    ∀ (t : ℚ) (n : Nat),
      sumCountAux gIdx vIdx norm key db t n =
        .ok (t + ((groupOf db gIdx key).map (pval vIdx norm)).sum,
             n + (groupOf db gIdx key).length) := by
  induction db with
  | nil =>
    intro _ _ t n
    simp [sumCountAux, groupOf]
  | cons row rest ih =>
    intro hlen hp t n
    obtain ⟨hg, hv⟩ := hlen row (List.mem_cons_self _ _)
    have hgetg : pyGetS row gIdx = .ok (row.getD gIdx "") := pyGetS_ok _ _ hg
    have hrest_len := fun r hr => hlen r (List.mem_cons_of_mem _ hr)
    have hrest_p := fun r hr => hp r (List.mem_cons_of_mem _ hr)
    by_cases hk : row.getD gIdx "" = key
    · obtain ⟨q, hq⟩ := Option.isSome_iff_exists.mp (hp row (List.mem_cons_self _ _) hk)
      have hgetv : pyGetS row vIdx = .ok (row.getD vIdx "") := pyGetS_ok _ _ hv
      have hFE : pyFloatE (norm (row.getD vIdx "")) = .ok q := by
        show (match pyFloat (norm (row.getD vIdx "")) with
          | some q => Except.ok q
          | none => Except.error PyErr.valueError) = Except.ok q
        rw [hq]
      have hpv : pval vIdx norm row = q := by
        show (pyFloat (norm (row.getD vIdx ""))).getD 0 = q
        rw [hq]
        rfl
      have hgrp : groupOf (row :: rest) gIdx key = row :: groupOf rest gIdx key := by
        unfold groupOf
        rw [List.filter_cons, hk]
        simp
      simp only [sumCountAux, hgetg, okBind, if_pos hk, hgetv, hFE]
      rw [ih hrest_len hrest_p (t + q) (n + 1), hgrp]
      simp only [List.map_cons, List.sum_cons, List.length_cons, hpv,
        Except.ok.injEq, Prod.mk.injEq]
      constructor
      · ring
      · omega
    · have hk2 : ¬(row[gIdx]?.getD "" = key) := by
        rw [← List.getD_eq_getElem?_getD]
        exact hk
      have hgrp : groupOf (row :: rest) gIdx key = groupOf rest gIdx key := by
        unfold groupOf
        rw [List.filter_cons]
        simp [hk2]
      simp only [sumCountAux, hgetg, okBind, if_neg hk]
      rw [ih hrest_len hrest_p t n, hgrp]

-- The inner loop raises ValueError exactly when a row of the key's group
-- has an unparsable value field.

theorem sumCountAux_err (gIdx vIdx : Nat) (norm : String → String) (key : String)
    (db : Dataset) :
    (∀ r ∈ db, gIdx < r.length ∧ vIdx < r.length) →
    ∀ (t : ℚ) (n : Nat),
      (sumCountAux gIdx vIdx norm key db t n = .error .valueError ↔
        ∃ r ∈ db, r.getD gIdx "" = key ∧ pyFloat (norm (r.getD vIdx "")) = none) := by
  induction db with
  | nil =>
    intro _ t n
    simp [sumCountAux]
  | cons row rest ih =>
    intro hlen t n
    obtain ⟨hg, hv⟩ := hlen row (List.mem_cons_self _ _)
    have hgetg : pyGetS row gIdx = .ok (row.getD gIdx "") := pyGetS_ok _ _ hg
    have hrest := fun r hr => hlen r (List.mem_cons_of_mem _ hr)
    by_cases hk : row.getD gIdx "" = key
    · have hgetv : pyGetS row vIdx = .ok (row.getD vIdx "") := pyGetS_ok _ _ hv
      rcases hq : pyFloat (norm (row.getD vIdx "")) with _ | q
      · have herr : sumCountAux gIdx vIdx norm key (row :: rest) t n =
            .error .valueError := by
          simp only [sumCountAux, hgetg, okBind, if_pos hk, hgetv, pyFloatE, hq, errBind]
        exact iff_of_true herr ⟨row, List.mem_cons_self _ _, hk, hq⟩
      · have hFE : pyFloatE (norm (row.getD vIdx "")) = .ok q := by
          show (match pyFloat (norm (row.getD vIdx "")) with
            | some q => Except.ok q
            | none => Except.error PyErr.valueError) = Except.ok q
          rw [hq]
        simp only [sumCountAux, hgetg, okBind, if_pos hk, hgetv, hFE]
        rw [ih hrest (t + q) (n + 1)]
        constructor
        · rintro ⟨r, hr, hrk, hbad⟩
          exact ⟨r, List.mem_cons_of_mem _ hr, hrk, hbad⟩
        · rintro ⟨r, hr, hrk, hbad⟩
          rcases List.mem_cons.mp hr with rfl | hr
          · rw [hq] at hbad; cases hbad
          · exact ⟨r, hr, hrk, hbad⟩
    · simp only [sumCountAux, hgetg, okBind, if_neg hk]
      rw [ih hrest t n]
      constructor
      · rintro ⟨r, hr, hrk, hbad⟩
        exact ⟨r, List.mem_cons_of_mem _ hr, hrk, hbad⟩
      · rintro ⟨r, hr, hrk, hbad⟩
        rcases List.mem_cons.mp hr with rfl | hr
        · exact absurd hrk hk
        · exact ⟨r, hr, hrk, hbad⟩

-- The outer averaging loop stores, per key, the sum divided by the count.

theorem computeAvgAux_ok (db : Dataset) (gIdx vIdx : Nat) (norm : String → String)
    (S : String → ℚ) (L : String → Nat) :
    ∀ (ks : List String) (acc : List (String × ℚ)),
      (∀ k ∈ ks, sumCountAux gIdx vIdx norm k db 0 0 = .ok (S k, L k)) →
      (∀ k ∈ ks, k ∉ keysOf acc) → ks.Nodup →
      ∃ res, computeAvgAux db gIdx vIdx norm ks acc = .ok res ∧
        keysOf res = keysOf acc ++ ks ∧
        (∀ k ∈ ks, dictGet res k = some (S k / (L k : ℚ))) ∧
        (∀ k, k ∉ ks → dictGet res k = dictGet acc k) := by
  intro ks
  induction ks with
  | nil =>
    intro acc _ _ _
    exact ⟨acc, rfl, by simp, by simp, fun k _ => rfl⟩
  | cons k ks ih =>
    intro acc hsum hdisj hnd
    have hk := hsum k (List.mem_cons_self _ _)
    have hknotacc := hdisj k (List.mem_cons_self _ _)
    have hkeys' : keysOf (dictSet acc k (S k / (L k : ℚ))) = keysOf acc ++ [k] :=
      keysOf_dictSet_new acc k _ hknotacc
    have hdisj' : ∀ k' ∈ ks, k' ∉ keysOf (dictSet acc k (S k / (L k : ℚ))) := by
      intro k' hk'
      rw [hkeys']
      intro hmem
      rcases List.mem_append.mp hmem with hmem | hmem
      · exact hdisj k' (List.mem_cons_of_mem _ hk') hmem
      · rcases List.mem_singleton.mp hmem with rfl
        exact (List.nodup_cons.mp hnd).1 hk'
    obtain ⟨res, hok, hkeys, hin, hout⟩ := ih (dictSet acc k (S k / (L k : ℚ)))
      (fun k' hk' => hsum k' (List.mem_cons_of_mem _ hk'))
      hdisj' (List.nodup_cons.mp hnd).2
    refine ⟨res, ?_, ?_, ?_, ?_⟩
    · simp only [computeAvgAux, hk, okBind]
      exact hok
    · rw [hkeys, hkeys', List.append_assoc]
      rfl
    · intro k' hk'
      rcases List.mem_cons.mp hk' with rfl | hk'
      · rw [hout k' (List.nodup_cons.mp hnd).1]
        exact dictGet_dictSet_same acc k' _
      · exact hin k' hk'
    · intro k' hk'
      have hk'k : k' ≠ k := fun hh => hk' (hh ▸ List.mem_cons_self _ _)
      have hk'ks : k' ∉ ks := fun hh => hk' (List.mem_cons_of_mem _ hh)
      rw [hout k' hk'ks, dictGet_dictSet_other acc k k' _ (Ne.symm hk'k)]

-- The outer loop raises ValueError exactly when some key's group has an
-- unparsable value field.

theorem computeAvgAux_err (db : Dataset) (gIdx vIdx : Nat) (norm : String → String)
    (hlen : ∀ r ∈ db, gIdx < r.length ∧ vIdx < r.length) :
    ∀ (ks : List String) (acc : List (String × ℚ)),
      (computeAvgAux db gIdx vIdx norm ks acc = .error .valueError ↔
        ∃ k ∈ ks, ∃ r ∈ db, r.getD gIdx "" = k ∧
          pyFloat (norm (r.getD vIdx "")) = none) := by
  intro ks
  induction ks with
  | nil =>
    intro acc
    simp [computeAvgAux]
  | cons k ks ih =>
    intro acc
    by_cases hbad : ∃ r ∈ db, r.getD gIdx "" = k ∧ pyFloat (norm (r.getD vIdx "")) = none
    · have herr : sumCountAux gIdx vIdx norm k db 0 0 = .error .valueError :=
        (sumCountAux_err gIdx vIdx norm k db hlen 0 0).mpr hbad
      have hcomp : computeAvgAux db gIdx vIdx norm (k :: ks) acc = .error .valueError := by
        simp only [computeAvgAux, herr, errBind]
      exact iff_of_true hcomp ⟨k, List.mem_cons_self _ _, hbad⟩
    · have hnotbad : ∀ r ∈ db, r.getD gIdx "" = k →
          (pyFloat (norm (r.getD vIdx ""))).isSome := by
        intro r hr hrk
        rcases hq : pyFloat (norm (r.getD vIdx "")) with _ | q
        · exact absurd ⟨r, hr, hrk, hq⟩ hbad
        · rfl
      have hok := sumCountAux_ok gIdx vIdx norm k db hlen hnotbad 0 0
      simp only [computeAvgAux, hok, okBind]
      rw [ih (dictSet acc k
        ((0 + ((groupOf db gIdx k).map (pval vIdx norm)).sum,
          0 + (groupOf db gIdx k).length).1 /
          (((0 + ((groupOf db gIdx k).map (pval vIdx norm)).sum,
            0 + (groupOf db gIdx k).length).2 : Nat) : ℚ)))]
      constructor
      · rintro ⟨k', hk', hex⟩
        exact ⟨k', List.mem_cons_of_mem _ hk', hex⟩
      · rintro ⟨k', hk', hex⟩
        rcases List.mem_cons.mp hk' with rfl | hk'
        · exact absurd hex hbad
        · exact ⟨k', hk', hex⟩

-- The shared average computation: keys are exactly the distinct group
-- values, and each key maps to the group's arithmetic mean.

theorem computeAvgCore_spec (db : Dataset) (gIdx vIdx : Nat) (norm : String → String)
    (hlen : ∀ r ∈ db, gIdx < r.length ∧ vIdx < r.length)
    (hp : ∀ r ∈ db, (pyFloat (norm (r.getD vIdx ""))).isSome) :
    ∃ res, computeAvgCore db gIdx vIdx norm = .ok res ∧
      (keysOf res).Nodup ∧
      (∀ k, k ∈ keysOf res ↔ k ∈ db.map (fun r => r.getD gIdx "")) ∧
      ∀ k ∈ keysOf res, dictGet res k =
        some (((groupOf db gIdx k).map (pval vIdx norm)).sum /
          ((groupOf db gIdx k).length : ℚ)) := by
  obtain ⟨t, hok, hkeys, hnd⟩ := freq_table_keys db gIdx (fun r hr => (hlen r hr).1)
  have hsum : ∀ k ∈ keysOf t, sumCountAux gIdx vIdx norm k db 0 0 =
      .ok (((groupOf db gIdx k).map (pval vIdx norm)).sum,
           (groupOf db gIdx k).length) := by
    intro k _
    have hh := sumCountAux_ok gIdx vIdx norm k db hlen (fun r hr _ => hp r hr) 0 0
    simpa using hh
  obtain ⟨res, hok2, hkeysres, hin, _⟩ := computeAvgAux_ok db gIdx vIdx norm
    (fun k => ((groupOf db gIdx k).map (pval vIdx norm)).sum)
    (fun k => (groupOf db gIdx k).length)
    (keysOf t) [] hsum (by simp [keysOf]) hnd
  have hnilkeys : keysOf ([] : List (String × ℚ)) ++ keysOf t = keysOf t := by
    simp [keysOf]
  refine ⟨res, ?_, ?_, ?_, ?_⟩
  · unfold computeAvgCore
    rw [hok]
    exact hok2
  · rw [hkeysres, hnilkeys]
    exact hnd
  · intro k
    rw [hkeysres, hnilkeys]
    exact hkeys k
  · intro k hk
    rw [hkeysres, hnilkeys] at hk
    exact hin k hk

/-- C5: for datasets whose numeric fields parse after normalization, the
aggregate analyzers return a mapping whose keys are exactly the distinct
group values (Google: category, column 1; Apple: genre, column 11) and
whose value per group is the arithmetic mean of the parsed field (Google:
installs, column 5 with `+`/`,` deleted; Apple: rating count, column 5);
the installs string `"10,000+"` normalizes to `10000`. -/
theorem C5_aggregate_analyzer (g a : Dataset)
    (hg : ∀ r ∈ g, 6 ≤ r.length)
    (hgp : ∀ r ∈ g, (pyFloat (stripPlusComma (r.getD 5 ""))).isSome)
    (ha : ∀ r ∈ a, 12 ≤ r.length)
    (hap : ∀ r ∈ a, (pyFloat (r.getD 5 "")).isSome) :
    pyFloat (stripPlusComma "10,000+") = some 10000 ∧
    (∃ res, compute_google_category_avg_installs g = .ok res ∧
      (keysOf res).Nodup ∧
      (∀ k, k ∈ keysOf res ↔ k ∈ g.map (fun r => r.getD 1 "")) ∧
      ∀ k ∈ keysOf res, dictGet res k =
        some (((groupOf g 1 k).map (pval 5 stripPlusComma)).sum /
          ((groupOf g 1 k).length : ℚ))) ∧
    (∃ res, compute_apple_genre_avg_ratings a = .ok res ∧
      (keysOf res).Nodup ∧
      (∀ k, k ∈ keysOf res ↔ k ∈ a.map (fun r => r.getD 11 "")) ∧
      ∀ k ∈ keysOf res, dictGet res k =
        some (((groupOf a 11 k).map (pval 5 (fun s => s))).sum /
          ((groupOf a 11 k).length : ℚ))) := by
  refine ⟨by decide, ?_, ?_⟩
  · exact computeAvgCore_spec g 1 5 stripPlusComma
      (fun r hr => ⟨by have := hg r hr; omega, by have := hg r hr; omega⟩) hgp
  · exact computeAvgCore_spec a 11 5 (fun s => s)
      (fun r hr => ⟨by have := ha r hr; omega, by have := ha r hr; omega⟩) hap

/-- Witness for C5 on concrete Google and Apple datasets. -/
theorem C5_aggregate_analyzer_witness :
    ((∀ r ∈ googleAvgEx, 6 ≤ r.length) ∧
      (∀ r ∈ googleAvgEx, (pyFloat (stripPlusComma (r.getD 5 ""))).isSome) ∧
      (∀ r ∈ appleAvgEx, 12 ≤ r.length) ∧
      (∀ r ∈ appleAvgEx, (pyFloat (r.getD 5 "")).isSome)) ∧
    (pyFloat (stripPlusComma "10,000+") = some 10000 ∧
    (∃ res, compute_google_category_avg_installs googleAvgEx = .ok res ∧
      (keysOf res).Nodup ∧
      (∀ k, k ∈ keysOf res ↔ k ∈ googleAvgEx.map (fun r => r.getD 1 "")) ∧
      ∀ k ∈ keysOf res, dictGet res k =
        some (((groupOf googleAvgEx 1 k).map (pval 5 stripPlusComma)).sum /
          ((groupOf googleAvgEx 1 k).length : ℚ))) ∧
    (∃ res, compute_apple_genre_avg_ratings appleAvgEx = .ok res ∧
      (keysOf res).Nodup ∧
      (∀ k, k ∈ keysOf res ↔ k ∈ appleAvgEx.map (fun r => r.getD 11 "")) ∧
      ∀ k ∈ keysOf res, dictGet res k =
        some (((groupOf appleAvgEx 11 k).map (pval 5 (fun s => s))).sum /
          ((groupOf appleAvgEx 11 k).length : ℚ)))) :=
  ⟨⟨by decide, by decide, by decide, by decide⟩,
    C5_aggregate_analyzer googleAvgEx appleAvgEx
      (by decide) (by decide) (by decide) (by decide)⟩

/-- C7: numeric parsing fails with ValueError (the spec's
`MalformedNumberError`) exactly when some value of the numeric field is
unparsable: review count (column 3) in `createdicodup`, installs (column 5
after deleting `+` and `,`) in `compute_google_category_avg_installs`; no
result is produced in that case. -/
theorem C7_malformed_number (d g : Dataset)
    (hd : ∀ r ∈ d, 4 ≤ r.length) (hg : ∀ r ∈ g, 6 ≤ r.length) :
    (createdicodup d = .error .valueError ↔
      ∃ r ∈ d, pyFloat (r.getD 3 "") = none) ∧
    (compute_google_category_avg_installs g = .error .valueError ↔
      ∃ r ∈ g, pyFloat (stripPlusComma (r.getD 5 "")) = none) := by
  constructor
  · exact createdicodupAux_err d [] hd
  · have hlen : ∀ r ∈ g, 1 < r.length ∧ 5 < r.length := fun r hr =>
      ⟨by have := hg r hr; omega, by have := hg r hr; omega⟩
    obtain ⟨t, hok, hkeys, _⟩ := freq_table_keys g 1 (fun r hr => (hlen r hr).1)
    have hred : compute_google_category_avg_installs g =
        computeAvgAux g 1 5 stripPlusComma (keysOf t) [] := by
      show computeAvgCore g 1 5 stripPlusComma = _
      unfold computeAvgCore
      rw [hok]
      rfl
    rw [hred, computeAvgAux_err g 1 5 stripPlusComma hlen (keysOf t) []]
    constructor
    · rintro ⟨k, _, r, hr, _, hbad⟩
      exact ⟨r, hr, hbad⟩
    · rintro ⟨r, hr, hbad⟩
      exact ⟨r.getD 1 "", (hkeys _).mpr (List.mem_map_of_mem _ hr), r, hr, rfl, hbad⟩

/-- Witness for C7 on concrete datasets with unparsable numeric fields. -/
theorem C7_malformed_number_witness :
    ((∀ r ∈ badReviewEx, 4 ≤ r.length) ∧ (∀ r ∈ badInstallsEx, 6 ≤ r.length)) ∧
    ((createdicodup badReviewEx = .error .valueError ↔
        ∃ r ∈ badReviewEx, pyFloat (r.getD 3 "") = none) ∧
      (compute_google_category_avg_installs badInstallsEx = .error .valueError ↔
        ∃ r ∈ badInstallsEx, pyFloat (stripPlusComma (r.getD 5 "")) = none)) :=
  ⟨⟨by decide, by decide⟩,
    C7_malformed_number badReviewEx badInstallsEx (by decide) (by decide)⟩

-- Python tuple comparison on (count, name): totality and transitivity.

theorem tupLe_total (a b : ℚ × String) : tupLe a b ∨ tupLe b a := by
  rcases lt_trichotomy a.1 b.1 with h | h | h
  · exact Or.inl (Or.inl h)
  · rcases le_total a.2 b.2 with h2 | h2
    · exact Or.inl (Or.inr ⟨h, h2⟩)
    · exact Or.inr (Or.inr ⟨h.symm, h2⟩)
  · exact Or.inr (Or.inl h)

theorem tupLe_trans {a b c : ℚ × String} (h1 : tupLe a b) (h2 : tupLe b c) :
    tupLe a c := by
  rcases h1 with h1 | ⟨h1, h1'⟩
  · rcases h2 with h2 | ⟨h2, _⟩
    · exact Or.inl (h1.trans h2)
    · exact Or.inl (lt_of_lt_of_eq h1 h2)
  · rcases h2 with h2 | ⟨h2, h2'⟩
    · exact Or.inl (lt_of_eq_of_lt h1 h2)
    · exact Or.inr ⟨h1.trans h2, le_trans h1' h2'⟩

-- Insertion sort produces a permutation sorted in descending order.

theorem insertD_perm (x : ℚ × String) (l : List (ℚ × String)) :
    (insertD x l).Perm (x :: l) := by
  induction l with
  | nil => exact List.Perm.refl _
  | cons y ys ih =>
    by_cases h : tupLe y x
    · rw [insertD, if_pos h]
    · rw [insertD, if_neg h]
      exact (ih.cons y).trans (List.Perm.swap x y ys)

theorem sortedDesc_perm (l : List (ℚ × String)) : (sortedDesc l).Perm l := by
  induction l with
  | nil => exact List.Perm.refl _
  | cons x xs ih => exact (insertD_perm x (sortedDesc xs)).trans (ih.cons x)

theorem insertD_pairwise (x : ℚ × String) (l : List (ℚ × String))
    (h : l.Pairwise (fun a b => tupLe b a)) :
    (insertD x l).Pairwise (fun a b => tupLe b a) := by
  induction l with
  | nil => simp [insertD]
  | cons y ys ih =>
    rcases List.pairwise_cons.mp h with ⟨hy, hys⟩
    by_cases hxy : tupLe y x
    · rw [insertD, if_pos hxy]
      refine List.pairwise_cons.mpr ⟨?_, h⟩
      intro z hz
      rcases List.mem_cons.mp hz with rfl | hz
      · exact hxy
      · exact tupLe_trans (hy z hz) hxy
    · rw [insertD, if_neg hxy]
      refine List.pairwise_cons.mpr ⟨?_, ih hys⟩
      intro z hz
      rcases List.mem_cons.mp ((insertD_perm x ys).mem_iff.mp hz) with rfl | hz
      · rcases tupLe_total z y with h' | h'
        · exact h'
        · exact absurd h' hxy
      · exact hy z hz

theorem sortedDesc_pairwise (l : List (ℚ × String)) :
    (sortedDesc l).Pairwise (fun a b => tupLe b a) := by
  induction l with
  | nil => exact List.Pairwise.nil
  | cons x xs ih => exact insertD_pairwise x (sortedDesc xs) ih

/-- C8: `display_table` lists the frequency-table entries sorted by
descending count, and entries with equal counts appear in descending
(reverse-lexicographic) order of their name. -/
theorem C8_display_sorted (d : Dataset) (index : Nat)
    (h : ∀ r ∈ d, index < r.length) :
    ∃ t res, freq_table d index = .ok t ∧ display_table d index = .ok res ∧
      res.Perm (t.map (fun kv => (kv.2, kv.1))) ∧
      res.Pairwise (fun a b => b.1 < a.1 ∨ (b.1 = a.1 ∧ b.2 < a.2)) := by
  obtain ⟨t, hok, hkeys, hnd⟩ := freq_table_keys d index h
  refine ⟨t, sortedDesc (t.map (fun kv => (kv.2, kv.1))), hok, ?_,
    sortedDesc_perm _, ?_⟩
  · unfold display_table
    rw [hok]
    rfl
  · have hge := sortedDesc_pairwise (t.map (fun kv => (kv.2, kv.1)))
    have hswap : (t.map (fun kv => (kv.2, kv.1))).map Prod.snd = keysOf t := by
      rw [List.map_map]
      rfl
    have hsnd : ((t.map (fun kv => (kv.2, kv.1))).map Prod.snd).Nodup := by
      rw [hswap]
      exact hnd
    have hsnd' : ((sortedDesc (t.map (fun kv => (kv.2, kv.1)))).map Prod.snd).Nodup :=
      (List.Perm.nodup_iff ((sortedDesc_perm _).map Prod.snd)).mpr hsnd
    have hne : (sortedDesc (t.map (fun kv => (kv.2, kv.1)))).Pairwise
        (fun a b => a.2 ≠ b.2) := List.pairwise_map.mp hsnd'
    refine (hge.and hne).imp ?_
    rintro a b ⟨hab, hneq⟩
    rcases hab with h' | ⟨h1, h2⟩
    · exact Or.inl h'
    · exact Or.inr ⟨h1, lt_of_le_of_ne h2 (Ne.symm hneq)⟩

/-- Witness for C8 on a concrete dataset with a frequency tie. -/
theorem C8_display_sorted_witness :
    (∀ r ∈ freqEx, 0 < r.length) ∧
    (∃ t res, freq_table freqEx 0 = .ok t ∧ display_table freqEx 0 = .ok res ∧
      res.Perm (t.map (fun kv => (kv.2, kv.1))) ∧
      res.Pairwise (fun a b => b.1 < a.1 ∨ (b.1 = a.1 ∧ b.2 < a.2))) :=
  ⟨by decide, C8_display_sorted freqEx 0 (by decide)⟩
